import Mathlib

/-!
Verification of the knowledge-base subsystem of the abstract-docs-agent
repository.  Strings are modelled as `List Char` (one element per UTF-16
unit of the JavaScript string; the repository only handles source text, so
the distinction to code points is immaterial).  The text chunker, the
document store with its persistence, the similarity-based retriever and the
incremental updater are embedded from `src/utils/ai.ts` (`AIService`) and
`src/agents/WebhookDocUpdateAgent.ts`.
-/

namespace AbstractDocsAgent

/-- Whitespace as JavaScript's `String.prototype.trim` sees it: space, tab,
line terminators, form/vertical feed, no-break space and the BOM.  (The less
common Unicode space separators never occur in the repository's inputs and
are omitted.) -/
def isJsWhitespace (c : Char) : Bool :=
  c = ' ' || c = '\t' || c = '\n' || c = '\r' || c = '\x0b' ||
  c = '\x0c' || c = ' ' || c = '﻿'

/-- JavaScript `s.trim()`: drop the maximal whitespace run from both ends. -/
def jsTrim (s : List Char) : List Char :=
  ((s.dropWhile isJsWhitespace).reverse.dropWhile isJsWhitespace).reverse

/-- The non-whitespace characters of a text, in order: the view under which
"concatenating all chunks, ignoring whitespace, reproduces the text" is
stated. -/
def nonWs (s : List Char) : List Char := s.filter (fun c => !isJsWhitespace c)

/-- JavaScript `text.split(/\r?\n/)`: cut the text at every `"\n"`,
consuming one `'\r'` immediately before it. -/
def splitLines : List Char → List (List Char)
  | [] => [[]]
  | '\r' :: '\n' :: rest => [] :: splitLines rest
  | '\n' :: rest => [] :: splitLines rest
  | c :: rest =>
    match splitLines rest with
    | [] => [[c]]
    | l :: ls => (c :: l) :: ls

/-- The accumulation loop of `AIService.chunkByLine` (src/utils/ai.ts lines
124-145): `lines` are the lines still to process and `cc` is the running
`currentChunk` buffer.  When appending the next line would push the buffer
past `maxChunkSize` and the buffer is non-empty, the trimmed buffer is
flushed; every processed line is then appended together with a newline.
A final non-empty buffer is flushed trimmed. -/
def chunkByLineLoop (maxChunkSize : Nat) : List (List Char) → List Char → List (List Char)
  | [], cc => if 0 < cc.length then [jsTrim cc] else []
  | line :: rest, cc =>
    if maxChunkSize < (cc ++ line).length ∧ 0 < cc.length then
      jsTrim cc :: chunkByLineLoop maxChunkSize rest (line ++ ['\n'])
    else
      chunkByLineLoop maxChunkSize rest ((cc ++ line) ++ ['\n'])

/-- `AIService.chunkByLine(text, maxChunkSize)` (src/utils/ai.ts lines
116-149). -/
def chunkByLine (text : List Char) (maxChunkSize : Nat) : List (List Char) :=
  chunkByLineLoop maxChunkSize (splitLines text) []

/-- One section between declaration boundaries, as `AIService.chunkText`
emits it (src/utils/ai.ts lines 69-80 and 87-97): already trimmed by the
caller; dropped when empty, chunked by line when longer than
`maxChunkSize`, kept whole otherwise. -/
def pushSection (maxChunkSize : Nat) (sec : List Char) : List (List Char) :=
  if 0 < sec.length then
    if maxChunkSize < sec.length then chunkByLine sec maxChunkSize else [sec]
  else []

/-- JavaScript `text.substring(a, b)` for `a ≤ b`: the characters at
positions `a` to `b - 1`. -/
def jsSubstring (text : List Char) (a b : Nat) : List Char :=
  (text.take b).drop a

/-- The boundary-splitting loop of `AIService.chunkText` (src/utils/ai.ts
lines 63-98): `idxs` are the start offsets of the regex matches still to
process and `lastIndex` the end of the last emitted section.  Each match
start closes the section `text.substring(lastIndex, startIndex)`; after the
last match the remainder `text.substring(lastIndex)` is emitted. -/
def chunkSections (maxChunkSize : Nat) (text : List Char) : List Nat → Nat → List (List Char)
  | [], lastIndex =>
    if lastIndex < text.length then
      pushSection maxChunkSize (jsTrim (text.drop lastIndex))
    else []
  | s :: rest, lastIndex =>
    (if lastIndex < s then pushSection maxChunkSize (jsTrim (jsSubstring text lastIndex s)) else [])
      ++ chunkSections maxChunkSize text rest s

/-- `AIService.chunkText(text, maxChunkSize)` (src/utils/ai.ts lines
38-111), parameterised by `idxs`, the list of start offsets that
`text.matchAll(functionRegex)` yields for this text (the regex engine is an
external collaborator; the offsets it produces are ascending positions in
`text`, and every theorem below holds for arbitrary `idxs`).  Text within
the limit is returned as the single chunk; with more than one boundary
match the text is split at the match offsets; otherwise the line-based
fallback runs. -/
def chunkTextWith (idxs : List Nat) (text : List Char) (maxChunkSize : Nat) : List (List Char) :=
  if text.length ≤ maxChunkSize then [text]
  else if 1 < idxs.length then chunkSections maxChunkSize text idxs 0
  else chunkByLine text maxChunkSize

/-! ## Data model -/

/-- The provenance record of a stored chunk (`DocumentChunk.metadata` in
src/utils/ai.ts lines 18-25). -/
structure ChunkMetadata where
  source : List Char
  type : List Char
deriving DecidableEq

/-- A knowledge-base record (`DocumentChunk` in src/utils/ai.ts lines
18-25).  The scalar type `α` of the embedding vector is kept abstract for
the store and persistence layer; the retrieval layer instantiates it with
`ℝ`, the idealisation of JavaScript's float arithmetic. -/
structure DocumentChunk (α : Type) where
  content : List Char
  embedding : List α
  metadata : ChunkMetadata
deriving DecidableEq

/-- `AIService.determineFileType` (src/utils/ai.ts lines 317-331): file
extension to content category, total with default `"other"`. -/
def determineFileType (ext : List Char) : List Char :=
  if ext = ".ts".toList ∨ ext = ".tsx".toList ∨ ext = ".js".toList ∨ ext = ".jsx".toList then
    "code".toList
  else if ext = ".md".toList then "documentation".toList
  else if ext = ".json".toList then "configuration".toList
  else "other".toList

/-- The basename of a path: the part after the last `'/'` (Node
`path.basename` for the paths this repository builds). -/
def pathBasename (s : List Char) : List Char :=
  (s.reverse.takeWhile (fun c => c ≠ '/')).reverse

/-- Node `path.extname`: the extension from the last `'.'` of the basename;
empty when the basename has no dot or only a leading dot.  (Node's
special-casing of names consisting solely of dots is not reproduced; it
never yields an extension of the recognised sets either way.) -/
def pathExtname (s : List Char) : List Char :=
  let b := pathBasename s
  let afterDotRev := b.reverse.takeWhile (fun c => c ≠ '.')
  if afterDotRev.length + 1 < b.length then '.' :: afterDotRev.reverse else []

/-- The content-type filter of `AIService.getRelevantContext`
(src/utils/ai.ts lines 455-460): take the part of `metadata.source` before
the first space (stripping a `"(part i/N)"` suffix), and test whether its
lower-cased extension is one of the four code extensions.  The stored
`metadata.type` is not consulted. -/
def isCodeSource (source : List Char) : Bool :=
  let filename := source.takeWhile (fun c => c ≠ ' ')
  let ext := (pathExtname filename).map Char.toLower
  ext = ".ts".toList || ext = ".tsx".toList || ext = ".js".toList || ext = ".jsx".toList

/-! ## Retrieval

`AIService.getRelevantContext` (src/utils/ai.ts lines 443-478) embeds the
query through the external embedding capability, so the embedding of the
query is the input of the model.  The `cosineSimilarity` helper of the
`ai` package is the standard dot-product-over-norms definition; JavaScript
floats are idealised as real numbers. -/

/-- The dot product of two embedding vectors, over the common length. -/
def dotList (a b : List ℝ) : ℝ := (List.zipWith (fun x y => x * y) a b).sum

/-- Cosine similarity (`cosineSimilarity` of the `ai` package): dot product
divided by the product of the Euclidean norms.  Lean's convention `x / 0 = 0`
stands in for the degenerate zero-norm case. -/
noncomputable def cosineSimilarity (a b : List ℝ) : ℝ :=
  dotList a b / (Real.sqrt (dotList a a) * Real.sqrt (dotList b b))

/-- One scored retrieval candidate (the records built at src/utils/ai.ts
lines 467-471). -/
structure ScoredDoc where
  document : DocumentChunk ℝ
  similarity : ℝ

/-- Insertion step of a stable descending sort: the new element goes in
front of the first element whose similarity it reaches, so it stays after
every element of strictly greater similarity and, being the later element
of any tie, after the tied ones as well. -/
noncomputable def insertScored (x : ScoredDoc) : List ScoredDoc → List ScoredDoc
  | [] => [x]
  | y :: ys =>
    if y.similarity ≤ x.similarity then x :: y :: ys else y :: insertScored x ys

/-- The sort of src/utils/ai.ts line 472,
`.sort((a, b) => b.similarity - a.similarity)`: JavaScript's
`Array.prototype.sort` is stable (ECMAScript 2019), and with this comparator
it orders by non-increasing similarity with ties in original order — exactly
the insertion sort `insertScored` computes. -/
noncomputable def sortScored : List ScoredDoc → List ScoredDoc
  | [] => []
  | x :: xs => insertScored x (sortScored xs)

/-- The `codeEntries` filter of `AIService.getRelevantContext`
(src/utils/ai.ts lines 455-460). -/
def codeEntries (kb : List (DocumentChunk ℝ)) : List (DocumentChunk ℝ) :=
  kb.filter (fun doc => isCodeSource doc.metadata.source)

/-- The scored candidates of `AIService.getRelevantContext`
(src/utils/ai.ts lines 467-471), for a query whose embedding is `q`. -/
noncomputable def scoredEntries (q : List ℝ) (kb : List (DocumentChunk ℝ)) : List ScoredDoc :=
  (codeEntries kb).map (fun doc => ⟨doc, cosineSimilarity q doc.embedding⟩)

/-- The result list of `AIService.getRelevantContext` (src/utils/ai.ts
lines 467-473): scored candidates sorted by descending similarity, cut to
the first `maxResults` by `.slice(0, maxResults)`. -/
noncomputable def relevantResults (q : List ℝ) (kb : List (DocumentChunk ℝ))
    (maxResults : Nat) : List ScoredDoc :=
  (sortScored (scoredEntries q kb)).take maxResults

/-- The final formatting of `AIService.getRelevantContext` (src/utils/ai.ts
lines 450-451 and 475-477): the sentinel for an empty knowledge base,
otherwise the `"[source] content"` lines joined by blank lines. -/
noncomputable def getRelevantContext (q : List ℝ) (kb : List (DocumentChunk ℝ))
    (maxResults : Nat) : List Char :=
  if kb.length = 0 then "No knowledge base available".toList
  else
    (List.intersperse ("\n\n".toList)
      ((relevantResults q kb maxResults).map
        (fun r => '[' :: r.document.metadata.source ++ (']' :: ' ' :: r.document.content)))).flatten

/-! ## Persistence

`AIService.saveKnowledgeBase` serialises the store with `JSON.stringify`
and `fs.writeFileSync`; `AIService.loadKnowledgeBase` reads the file back
and assigns `JSON.parse(data)` to the store.  The filesystem is modelled as
an association list from paths to file contents; a file either holds a
parsed JSON value (JavaScript's `JSON.stringify`/`JSON.parse` round-trip
finite numbers exactly, so the tree is kept structurally with scalars of
type `α`) or is malformed, in which case `JSON.parse` throws. -/

/-- A JSON value whose numeric scalars have type `α`. -/
inductive Json (α : Type) : Type where
  | null : Json α
  | bool (b : Bool) : Json α
  | num (x : α) : Json α
  | str (s : List Char) : Json α
  | arr (elems : List (Json α)) : Json α
  | obj (fields : List (List Char × Json α)) : Json α

/-- The contents of one file on disk: text that `JSON.parse` accepts,
carried as its parse, or text it throws on. -/
inductive FileContent (α : Type) : Type where
  | parsable (j : Json α) : FileContent α
  | malformed : FileContent α

/-- A filesystem: paths with their file contents. -/
abbrev Fs (α : Type) := List (List Char × FileContent α)

/-- Association-list lookup by exact key (the first binding wins, matching
`lookupFile (fsWrite ...)` reading the latest write). -/
def lookupFile {β : Type} : List (List Char × β) → List Char → Option β
  | [], _ => none
  | (k, v) :: rest, p => if k = p then some v else lookupFile rest p

/-- `fs.writeFileSync(path, data)`: the new binding shadows any previous
contents of the path. -/
def fsWrite (fs : Fs α) (p : List Char) (v : FileContent α) : Fs α := (p, v) :: fs

/-- Field access in a JSON object literal. -/
def getField {α : Type} (fields : List (List Char × Json α)) (name : List Char) :
    Option (Json α) :=
  match fields with
  | [] => none
  | (k, v) :: rest => if k = name then some v else getField rest name

/-- A JSON string field read as text (default empty, standing in for the
untyped value JavaScript would carry through). -/
def asString : Option (Json α) → List Char
  | some (.str s) => s
  | _ => []

/-- A JSON scalar read as a number. -/
def asNum : Json α → Option α
  | .num x => some x
  | _ => none

/-- A JSON array field read as a numeric vector. -/
def asNumArr : Option (Json α) → List α
  | some (.arr xs) => xs.filterMap asNum
  | _ => []

/-- The JSON shape `JSON.stringify` produces for one `DocumentChunk`. -/
def encodeChunk (c : DocumentChunk α) : Json α :=
  .obj [("content".toList, .str c.content),
        ("embedding".toList, .arr (c.embedding.map Json.num)),
        ("metadata".toList,
          .obj [("source".toList, .str c.metadata.source),
                ("type".toList, .str c.metadata.type)])]

/-- The JSON shape `JSON.stringify(this.knowledgeBase)` produces. -/
def encodeKB (kb : List (DocumentChunk α)) : Json α := .arr (kb.map encodeChunk)

/-- The metadata object read back from JSON. -/
def decodeMeta : Option (Json α) → ChunkMetadata
  | some (.obj fields) =>
    ⟨asString (getField fields "source".toList), asString (getField fields "type".toList)⟩
  | _ => ⟨[], []⟩

/-- One chunk read back from JSON.  JavaScript assigns the parsed value
unchecked; the model decodes the expected shape structurally, defaulting
the fields a non-conforming value would leave untyped. -/
def decodeChunk (j : Json α) : DocumentChunk α :=
  match j with
  | .obj fields =>
    { content := asString (getField fields "content".toList)
      embedding := asNumArr (getField fields "embedding".toList)
      metadata := decodeMeta (getField fields "metadata".toList) }
  | _ => { content := [], embedding := [], metadata := ⟨[], []⟩ }

/-- The store read back from a parsed snapshot. -/
def decodeKB (j : Json α) : List (DocumentChunk α) :=
  match j with
  | .arr xs => xs.map decodeChunk
  | _ => []

/-- The warning `AIService.saveKnowledgeBase` logs for an empty store
(src/utils/ai.ts line 487). -/
def emptyStoreWarning : List Char :=
  "Knowledge base is empty, nothing to save!".toList

/-- `AIService.saveKnowledgeBase(filePath)` (src/utils/ai.ts lines
483-503): an empty store logs a warning and returns without writing;
otherwise the serialised store overwrites the file.  The result pairs the
filesystem after the call with the warnings logged. -/
def saveKnowledgeBase (fs : Fs α) (filePath : List Char) (kb : List (DocumentChunk α)) :
    Fs α × List (List Char) :=
  if kb.length = 0 then (fs, [emptyStoreWarning])
  else (fsWrite fs filePath (.parsable (encodeKB kb)), [])

/-- The one exception `AIService.loadKnowledgeBase` can propagate: the
`JSON.parse` failure on a malformed snapshot. -/
inductive LoadOutcome : Type where
  | parseError : LoadOutcome
deriving DecidableEq

/-- `AIService.loadKnowledgeBase(filePath)` (src/utils/ai.ts lines
508-534): a missing file is logged with `console.error` and the method
returns normally, store untouched; a malformed file makes `JSON.parse`
throw before the store is assigned; a parsable file replaces the store
with the parsed value.  The result pairs the store after the call with the
exception, if one was thrown. -/
def loadKnowledgeBase (fs : Fs α) (filePath : List Char) (kb : List (DocumentChunk α)) :
    List (DocumentChunk α) × Option LoadOutcome :=
  match lookupFile fs filePath with
  | some (.parsable j) => (decodeKB j, none)
  | some .malformed => (kb, some .parseError)
  | none => (kb, none)

/-! ## Incremental update

`WebhookDocUpdateAgent.updateKnowledgeBase(changedFiles)`
(src/agents/WebhookDocUpdateAgent.ts lines 237-312) re-ingests the changed
paths into the existing store.  The repository working tree is a second
association list from full paths to file text; the external embedding
capability is the parameter `embedF`, and the regex engine again enters as
the function `regexIdx` giving the boundary-match offsets of a text. -/

/-- A checked-out working tree: full paths with their text. -/
abbrev SrcFs := List (List Char × List Char)

/-- `AIService.MAX_CHUNK_SIZE` (src/utils/ai.ts line 33). -/
def MAX_CHUNK_SIZE : Nat := 8000

/-- Whether the second list starts with the first. -/
def listStartsWith : List Char → List Char → Bool
  | [], _ => true
  | _ :: _, [] => false
  | n :: ns, h :: hs => n = h && listStartsWith ns hs

/-- JavaScript `hay.includes(needle)`: containment as a contiguous
substring. -/
def containsSubstring (needle : List Char) : List Char → Bool
  | [] => listStartsWith needle []
  | c :: rest => listStartsWith needle (c :: rest) || containsSubstring needle rest

/-- The path-substring exclusions of `updateKnowledgeBase`
(src/agents/WebhookDocUpdateAgent.ts lines 251-267): generated ABI
bindings, the test directory and the web3-react-agw package. -/
def excludedChangedFile (filePath : List Char) : Bool :=
  containsSubstring ("packages/agw-client/src/abis/".toList) filePath ||
  containsSubstring ("packages/agw-client/test/".toList) filePath ||
  containsSubstring ("packages/web3-react-agw/".toList) filePath

/-- `path.join(this.repoPath, filePath)` for the already relative paths the
webhook delivers (path normalisation has nothing to rewrite on them). -/
def pathJoin (a b : List Char) : List Char := a ++ ('/' :: b)

/-- The recognised extensions of `updateKnowledgeBase`
(src/agents/WebhookDocUpdateAgent.ts line 276). -/
def includedExts : List (List Char) :=
  [".ts".toList, ".tsx".toList, ".js".toList, ".jsx".toList, ".md".toList, ".json".toList]

/-- The `source` string for part `i` of `n` of a chunked file
(src/agents/WebhookDocUpdateAgent.ts line 288). -/
def partSource (filePath : List Char) (i n : Nat) : List Char :=
  filePath ++ " (part ".toList ++ (toString i).toList ++ "/".toList ++
    (toString n).toList ++ ")".toList

/-- The records `updateKnowledgeBase` appends for one readable changed file
(src/agents/WebhookDocUpdateAgent.ts lines 273-297): unrecognised
extensions add nothing; large files are chunked with `chunkText` and each
chunk is embedded and tagged `"<path> (part i/N)"`; small files are
embedded whole. -/
def chunkRecordsFor (embedF : List Char → List α) (regexIdx : List Char → List Nat)
    (filePath content : List Char) : List (DocumentChunk α) :=
  let ext := (pathExtname filePath).map Char.toLower
  if includedExts.contains ext then
    let fileType := determineFileType ext
    if MAX_CHUNK_SIZE < content.length then
      let chunks := chunkTextWith (regexIdx content) content MAX_CHUNK_SIZE
      chunks.enum.map (fun pr =>
        { content := pr.2, embedding := embedF pr.2
          metadata := ⟨partSource filePath (pr.1 + 1) chunks.length, fileType⟩ })
    else
      [{ content := content, embedding := embedF content, metadata := ⟨filePath, fileType⟩ }]
  else []

/-- The chunks one entry of the changed-file list contributes: nothing when
the path matches an exclusion or no longer exists in the working tree,
`chunkRecordsFor` of its text otherwise. -/
def chunksForChangedFile (tree : SrcFs) (repoPath : List Char)
    (embedF : List Char → List α) (regexIdx : List Char → List Nat)
    (filePath : List Char) : List (DocumentChunk α) :=
  if excludedChangedFile filePath then []
  else
    match lookupFile tree (pathJoin repoPath filePath) with
    | none => []
    | some content => chunkRecordsFor embedF regexIdx filePath content

/-- The per-file loop of `updateKnowledgeBase`
(src/agents/WebhookDocUpdateAgent.ts lines 250-305): each changed file's
records are appended to the store in order. -/
def updateKnowledgeBaseLoop (tree : SrcFs) (repoPath : List Char)
    (embedF : List Char → List α) (regexIdx : List Char → List Nat) :
    List (List Char) → List (DocumentChunk α) → List (DocumentChunk α)
  | [], kb => kb
  | p :: rest, kb =>
    updateKnowledgeBaseLoop tree repoPath embedF regexIdx rest
      (kb ++ chunksForChangedFile tree repoPath embedF regexIdx p)

/-- `WebhookDocUpdateAgent.updateKnowledgeBase(changedFiles)`
(src/agents/WebhookDocUpdateAgent.ts lines 237-312), as a transformation of
the in-memory store: when the repository path is missing the method warns
and returns with the store untouched; otherwise every changed file is
processed in order.  (The trailing `saveKnowledgeBase` call persists the
resulting store and is modelled by `saveKnowledgeBase` above; it does not
change the store.) -/
def updateKnowledgeBase (tree : SrcFs) (repoExists : Bool) (repoPath : List Char)
    (embedF : List Char → List α) (regexIdx : List Char → List Nat)
    (kb : List (DocumentChunk α)) (changedFiles : List (List Char)) :
    List (DocumentChunk α) :=
  if repoExists then updateKnowledgeBaseLoop tree repoPath embedF regexIdx changedFiles kb
  else kb

/-! ## Sanity checks: the embedded definitions evaluate as the source does on small inputs -/

example : chunkTextWith [] ("ab\ncd".toList) 3 = ["ab".toList, "cd".toList] := by decide

example : chunkTextWith [] ("\n\n".toList) 1 = [[], []] := by decide

example : chunkTextWith [] ("abcdef".toList) 10 = ["abcdef".toList] := by decide

example : pathExtname ("dir/a.ts".toList) = ".ts".toList := by decide

example : pathExtname ("dir/README".toList) = [] := by decide

example : pathExtname (".ts".toList) = [] := by decide

example : isCodeSource ("packages/agw-client/src/a.ts (part 2/7)".toList) = true := by decide

example : isCodeSource ("docs/readme.md".toList) = false := by decide

/-! ## Lemmas on trimming and line splitting -/

theorem nonWs_dropWhile_ws (s : List Char) :
    nonWs (s.dropWhile isJsWhitespace) = nonWs s := by
  induction s with
  | nil => rfl
  | cons c rest ih =>
    by_cases hc : isJsWhitespace c = true
    · simp [nonWs, List.dropWhile_cons, hc] at ih ⊢
      simpa [nonWs, hc] using ih
    · simp [List.dropWhile_cons, hc]

theorem nonWs_jsTrim (s : List Char) : nonWs (jsTrim s) = nonWs s := by
  have hA := nonWs_dropWhile_ws s
  have hB := nonWs_dropWhile_ws ((s.dropWhile isJsWhitespace).reverse)
  simp only [nonWs] at hA hB ⊢
  rw [jsTrim, List.filter_reverse, hB, List.filter_reverse, List.reverse_reverse]
  exact hA

theorem mem_of_mem_jsTrim {a : Char} {s : List Char} (h : a ∈ jsTrim s) : a ∈ s := by
  rw [jsTrim] at h
  rw [List.mem_reverse] at h
  have h2 := (List.dropWhile_sublist isJsWhitespace).subset h
  rw [List.mem_reverse] at h2
  exact (List.dropWhile_sublist isJsWhitespace).subset h2

theorem jsTrim_ne_nil_of_nonWs {s : List Char} (h : nonWs s ≠ []) : jsTrim s ≠ [] := by
  intro hnil
  apply h
  rw [← nonWs_jsTrim, hnil]
  rfl

theorem jsTrim_length_le (s : List Char) : (jsTrim s).length ≤ s.length := by
  rw [jsTrim]
  calc ((s.dropWhile isJsWhitespace).reverse.dropWhile isJsWhitespace).reverse.length
      = ((s.dropWhile isJsWhitespace).reverse.dropWhile isJsWhitespace).length := by
        rw [List.length_reverse]
    _ ≤ (s.dropWhile isJsWhitespace).reverse.length :=
        (List.dropWhile_sublist isJsWhitespace).length_le
    _ = (s.dropWhile isJsWhitespace).length := by rw [List.length_reverse]
    _ ≤ s.length := (List.dropWhile_sublist isJsWhitespace).length_le

theorem jsTrim_append_ws {c : Char} (hc : isJsWhitespace c = true) (s : List Char) :
    jsTrim (s ++ [c]) = jsTrim s := by
  rw [jsTrim, jsTrim, List.dropWhile_append]
  by_cases hd : (s.dropWhile isJsWhitespace).isEmpty = true
  · rw [if_pos hd]
    rw [List.isEmpty_iff] at hd
    rw [hd]
    simp [List.dropWhile_cons, hc]
  · rw [if_neg hd]
    rw [List.isEmpty_iff] at hd
    rw [List.reverse_append]
    simp only [List.reverse_cons, List.reverse_nil, List.nil_append, List.singleton_append]
    rw [List.dropWhile_cons_of_pos hc]

theorem splitLines_cons_generic (c : Char) (rest : List Char)
    (h1 : ∀ r2 : List Char, c = '\r' → rest = '\n' :: r2 → False)
    (h2 : c = '\n' → False) :
    splitLines (c :: rest) =
      match splitLines rest with
      | [] => [[c]]
      | l :: ls => (c :: l) :: ls := by
  rw [splitLines.eq_def]
  split
  · rename_i h
    cases h
  · rename_i r2 h
    rw [List.cons.injEq] at h
    exact (h1 r2 h.1 h.2).elim
  · rename_i r2 h
    rw [List.cons.injEq] at h
    exact (h2 h.1).elim
  · rename_i c2 rest2 hne1 hne2 h
    rw [List.cons.injEq] at h
    rw [h.1, h.2]

theorem splitLines_ne_nil (s : List Char) : splitLines s ≠ [] := by
  induction s using splitLines.induct with
  | case1 => simp [splitLines]
  | case2 rest ih => simp [splitLines]
  | case3 rest ih => simp [splitLines]
  | case4 c rest h1 h2 hnil ih =>
    rw [splitLines_cons_generic c rest h1 h2, hnil]
    simp
  | case5 c rest h1 h2 l ls heq ih =>
    rw [splitLines_cons_generic c rest h1 h2, heq]
    simp

theorem not_newline_mem_splitLines {s : List Char} :
    ∀ l ∈ splitLines s, '\n' ∉ l := by
  induction s using splitLines.induct with
  | case1 =>
    intro l hl
    simp [splitLines] at hl
    simp [hl]
  | case2 rest ih =>
    intro l hl
    rw [splitLines] at hl
    rcases List.mem_cons.mp hl with h | h
    · simp [h]
    · exact ih l h
  | case3 rest ih =>
    intro l hl
    rw [splitLines] at hl
    rcases List.mem_cons.mp hl with h | h
    · simp [h]
    · exact ih l h
  | case4 c rest h1 h2 hnil ih =>
    intro l hl
    rw [splitLines_cons_generic c rest h1 h2, hnil] at hl
    simp at hl
    intro hmem
    rw [hl] at hmem
    rcases List.mem_singleton.mp hmem with h
    exact h2 h.symm
  | case5 c rest h1 h2 l0 ls heq ih =>
    intro l hl
    rw [splitLines_cons_generic c rest h1 h2, heq] at hl
    rcases List.mem_cons.mp hl with h | h
    · rw [h]
      intro hmem
      rcases List.mem_cons.mp hmem with hh | hh
      · exact h2 hh.symm
      · exact ih l0 (heq ▸ List.mem_cons_self l0 ls) hh
    · exact ih l (heq ▸ List.mem_cons_of_mem l0 h)

theorem flatten_nonWs_splitLines (s : List Char) :
    ((splitLines s).map nonWs).flatten = nonWs s := by
  induction s using splitLines.induct with
  | case1 => rfl
  | case2 rest ih =>
    rw [splitLines]
    simpa [nonWs, isJsWhitespace] using ih
  | case3 rest ih =>
    rw [splitLines]
    simpa [nonWs, isJsWhitespace] using ih
  | case4 c rest h1 h2 hnil ih =>
    exact absurd hnil (splitLines_ne_nil rest)
  | case5 c rest h1 h2 l0 ls heq ih =>
    rw [splitLines_cons_generic c rest h1 h2, heq]
    rw [heq] at ih
    by_cases hc : isJsWhitespace c = true
    · simp only [List.map_cons, List.flatten_cons] at ih ⊢
      simpa [nonWs, hc] using ih
    · simp only [List.map_cons, List.flatten_cons] at ih ⊢
      rw [show nonWs (c :: rest) = c :: nonWs rest from by simp [nonWs, hc],
        show nonWs (c :: l0) = c :: nonWs l0 from by simp [nonWs, hc]]
      rw [List.cons_append, ih]

/-! ## Lemmas on the chunker -/

/-- A buffer admissible for flushing: empty, or a line plus its trailing
newline where the line is either a single line (no inner newline, the
oversized-line exception) or short enough that trimming keeps the flush
within the bound. -/
def BufferInv (maxChunkSize : Nat) (cc : List Char) : Prop :=
  cc = [] ∨ ∃ l0 : List Char, cc = l0 ++ ['\n'] ∧ ('\n' ∉ l0 ∨ l0.length ≤ maxChunkSize)

theorem flush_ok {maxChunkSize : Nat} {cc : List Char}
    (h : BufferInv maxChunkSize cc) :
    (jsTrim cc).length ≤ maxChunkSize ∨ '\n' ∉ jsTrim cc := by
  rcases h with hnil | ⟨l0, hcc, hl0⟩
  · rw [hnil]
    left
    simp [jsTrim]
  · rw [hcc, jsTrim_append_ws (by decide)]
    rcases hl0 with hline | hlen
    · right
      intro hmem
      exact hline (mem_of_mem_jsTrim hmem)
    · left
      exact le_trans (jsTrim_length_le l0) hlen

theorem chunkByLineLoop_size (maxChunkSize : Nat) (lines : List (List Char))
    (cc : List Char) (hlines : ∀ l ∈ lines, '\n' ∉ l)
    (hcc : BufferInv maxChunkSize cc) :
    ∀ c ∈ chunkByLineLoop maxChunkSize lines cc,
      c.length ≤ maxChunkSize ∨ '\n' ∉ c := by
  induction lines generalizing cc with
  | nil =>
    intro c hc
    rw [chunkByLineLoop] at hc
    by_cases hlen : 0 < cc.length
    · rw [if_pos hlen] at hc
      rw [List.mem_singleton.mp hc]
      exact flush_ok hcc
    · rw [if_neg hlen] at hc
      cases hc
  | cons line rest ih =>
    intro c hc
    have hline : '\n' ∉ line := hlines line (List.mem_cons_self line rest)
    have hrest : ∀ l ∈ rest, '\n' ∉ l := fun l hl => hlines l (List.mem_cons_of_mem line hl)
    rw [chunkByLineLoop] at hc
    by_cases hflush : maxChunkSize < (cc ++ line).length ∧ 0 < cc.length
    · rw [if_pos hflush] at hc
      rcases List.mem_cons.mp hc with h | h
      · rw [h]
        exact flush_ok hcc
      · exact ih (line ++ ['\n']) hrest (Or.inr ⟨line, rfl, Or.inl hline⟩) c h
    · rw [if_neg hflush] at hc
      refine ih ((cc ++ line) ++ ['\n']) hrest (Or.inr ⟨cc ++ line, rfl, ?_⟩) c hc
      by_cases hccnil : cc = []
      · rw [hccnil, List.nil_append]
        exact Or.inl hline
      · right
        have hpos : 0 < cc.length := List.length_pos.mpr hccnil
        rcases Nat.lt_or_ge maxChunkSize (cc ++ line).length with hlt | hge
        · exact absurd ⟨hlt, hpos⟩ hflush
        · exact hge

theorem chunkByLine_size (text : List Char) (maxChunkSize : Nat) :
    ∀ c ∈ chunkByLine text maxChunkSize, c.length ≤ maxChunkSize ∨ '\n' ∉ c :=
  chunkByLineLoop_size maxChunkSize (splitLines text) []
    (fun l hl => not_newline_mem_splitLines l hl) (Or.inl rfl)

theorem pushSection_size (maxChunkSize : Nat) (sec : List Char) :
    ∀ c ∈ pushSection maxChunkSize sec, c.length ≤ maxChunkSize ∨ '\n' ∉ c := by
  intro c hc
  rw [pushSection] at hc
  by_cases h0 : 0 < sec.length
  · rw [if_pos h0] at hc
    by_cases hbig : maxChunkSize < sec.length
    · rw [if_pos hbig] at hc
      exact chunkByLine_size sec maxChunkSize c hc
    · rw [if_neg hbig] at hc
      rw [List.mem_singleton.mp hc]
      exact Or.inl (Nat.le_of_not_lt hbig)
  · rw [if_neg h0] at hc
    cases hc

theorem chunkSections_size (maxChunkSize : Nat) (text : List Char)
    (idxs : List Nat) (lastIndex : Nat) :
    ∀ c ∈ chunkSections maxChunkSize text idxs lastIndex,
      c.length ≤ maxChunkSize ∨ '\n' ∉ c := by
  induction idxs generalizing lastIndex with
  | nil =>
    intro c hc
    rw [chunkSections] at hc
    by_cases h : lastIndex < text.length
    · rw [if_pos h] at hc
      exact pushSection_size maxChunkSize _ c hc
    · rw [if_neg h] at hc
      cases hc
  | cons s rest ih =>
    intro c hc
    rw [chunkSections] at hc
    rcases List.mem_append.mp hc with h | h
    · by_cases hlt : lastIndex < s
      · rw [if_pos hlt] at h
        exact pushSection_size maxChunkSize _ c h
      · rw [if_neg hlt] at h
        cases h
    · exact ih s c h

theorem chunkTextWith_size (idxs : List Nat) (text : List Char) (maxChunkSize : Nat) :
    ∀ c ∈ chunkTextWith idxs text maxChunkSize, c.length ≤ maxChunkSize ∨ '\n' ∉ c := by
  intro c hc
  rw [chunkTextWith] at hc
  by_cases hsmall : text.length ≤ maxChunkSize
  · rw [if_pos hsmall] at hc
    rw [List.mem_singleton.mp hc]
    exact Or.inl hsmall
  · rw [if_neg hsmall] at hc
    by_cases hmany : 1 < idxs.length
    · rw [if_pos hmany] at hc
      exact chunkSections_size maxChunkSize text idxs 0 c hc
    · rw [if_neg hmany] at hc
      exact chunkByLine_size text maxChunkSize c hc

theorem chunkByLineLoop_ne_nil (maxChunkSize : Nat) (lines : List (List Char))
    (cc : List Char) (hlines : ∀ l ∈ lines, nonWs l ≠ [])
    (hcc : cc = [] ∨ nonWs cc ≠ []) :
    ∀ c ∈ chunkByLineLoop maxChunkSize lines cc, c ≠ [] := by
  induction lines generalizing cc with
  | nil =>
    intro c hc
    rw [chunkByLineLoop] at hc
    by_cases hlen : 0 < cc.length
    · rw [if_pos hlen] at hc
      rw [List.mem_singleton.mp hc]
      rcases hcc with hnil | hnw
      · rw [hnil] at hlen
        cases hlen
      · exact jsTrim_ne_nil_of_nonWs hnw
    · rw [if_neg hlen] at hc
      cases hc
  | cons line rest ih =>
    intro c hc
    have hline : nonWs line ≠ [] := hlines line (List.mem_cons_self line rest)
    have hrest : ∀ l ∈ rest, nonWs l ≠ [] := fun l hl => hlines l (List.mem_cons_of_mem line hl)
    have hnewline : nonWs (line ++ ['\n']) = nonWs line := by
      simp [nonWs, List.filter_append, isJsWhitespace]
    rw [chunkByLineLoop] at hc
    by_cases hflush : maxChunkSize < (cc ++ line).length ∧ 0 < cc.length
    · rw [if_pos hflush] at hc
      rcases List.mem_cons.mp hc with h | h
      · rw [h]
        rcases hcc with hnil | hnw
        · rw [hnil] at hflush
          cases hflush.2
        · exact jsTrim_ne_nil_of_nonWs hnw
      · refine ih (line ++ ['\n']) hrest (Or.inr ?_) c h
        rw [hnewline]
        exact hline
    · rw [if_neg hflush] at hc
      refine ih ((cc ++ line) ++ ['\n']) hrest (Or.inr ?_) c hc
      rw [List.append_assoc, nonWs, List.filter_append, ← nonWs, ← nonWs, hnewline]
      intro happ
      exact hline (List.append_eq_nil.mp happ).2

theorem chunkByLineLoop_flatten (maxChunkSize : Nat) (lines : List (List Char))
    (cc : List Char) :
    ((chunkByLineLoop maxChunkSize lines cc).map nonWs).flatten
      = nonWs cc ++ ((lines.map nonWs).flatten) := by
  induction lines generalizing cc with
  | nil =>
    rw [chunkByLineLoop]
    by_cases hlen : 0 < cc.length
    · rw [if_pos hlen]
      simp [nonWs_jsTrim]
    · rw [if_neg hlen]
      have : cc = [] := by
        cases cc with
        | nil => rfl
        | cons a l => exact absurd (Nat.succ_pos l.length) hlen
      simp [this, nonWs]
  | cons line rest ih =>
    have hnewline : nonWs (line ++ ['\n']) = nonWs line := by
      simp [nonWs, List.filter_append, isJsWhitespace]
    rw [chunkByLineLoop]
    by_cases hflush : maxChunkSize < (cc ++ line).length ∧ 0 < cc.length
    · rw [if_pos hflush]
      simp only [List.map_cons, List.flatten_cons]
      rw [ih (line ++ ['\n']), hnewline, nonWs_jsTrim]
    · rw [if_neg hflush]
      rw [ih ((cc ++ line) ++ ['\n'])]
      rw [List.append_assoc, nonWs, List.filter_append, ← nonWs, ← nonWs, hnewline]
      simp [nonWs, List.append_assoc]

theorem chunkByLine_flatten (text : List Char) (maxChunkSize : Nat) :
    ((chunkByLine text maxChunkSize).map nonWs).flatten = nonWs text := by
  rw [chunkByLine, chunkByLineLoop_flatten, flatten_nonWs_splitLines]
  rfl

theorem nonWs_flatten (ls : List (List Char)) :
    nonWs ls.flatten = (ls.map nonWs).flatten := by
  induction ls with
  | nil => rfl
  | cons l rest ih =>
    rw [List.flatten_cons, nonWs, List.filter_append, List.map_cons, List.flatten_cons,
      ← nonWs, ← nonWs, ih]

/-! ## Lemmas on the lines of trimmed sections

The boundary branch of `chunkText` hands `chunkByLine` trimmed contiguous
substrings of the text.  Every line of such a trimmed substring contains a
non-whitespace character as soon as every line of the whole text does: its
interior lines are complete lines of the text, and its first and last
lines contain the non-whitespace characters that survived trimming at the
two ends. -/

/-- Every line of the text contains a non-whitespace character. -/
def NonBlankLines (t : List Char) : Prop := ∀ l ∈ splitLines t, nonWs l ≠ []

/-- Every line of the text except the first contains a non-whitespace
character (the form that survives cutting a prefix off the text). -/
def NonBlankTail (t : List Char) : Prop := ∀ l ∈ (splitLines t).tail, nonWs l ≠ []

theorem nonBlankTail_of_nonBlankLines {t : List Char} (h : NonBlankLines t) :
    NonBlankTail t := fun l hl => h l (List.mem_of_mem_tail hl)

theorem nonWs_ne_nil_of_mem {s : List Char} {c : Char} (hc : c ∈ s)
    (hws : isJsWhitespace c = false) : nonWs s ≠ [] := by
  intro hnil
  have : c ∈ nonWs s := List.mem_filter.mpr ⟨hc, by rw [hws]; rfl⟩
  rw [hnil] at this
  cases this

theorem head?_dropWhile_ws {l : List Char} {c : Char}
    (h : (l.dropWhile isJsWhitespace).head? = some c) : isJsWhitespace c = false := by
  have hspec := List.head?_dropWhile_not isJsWhitespace l
  rw [h] at hspec
  exact hspec

theorem jsTrim_decomposition (u : List Char) :
    ∃ pre post, u = pre ++ jsTrim u ++ post := by
  refine ⟨u.takeWhile isJsWhitespace,
    ((u.dropWhile isJsWhitespace).reverse.takeWhile isJsWhitespace).reverse, ?_⟩
  conv_lhs => rw [← List.takeWhile_append_dropWhile isJsWhitespace u]
  rw [List.append_assoc]
  congr 1
  conv_lhs => rw [← List.reverse_reverse (u.dropWhile isJsWhitespace),
    ← List.takeWhile_append_dropWhile isJsWhitespace (u.dropWhile isJsWhitespace).reverse,
    List.reverse_append]
  rw [jsTrim]

theorem jsTrim_head_not_ws {u : List Char} {c : Char}
    (h : (jsTrim u).head? = some c) : isJsWhitespace c = false := by
  have hpre : (u.dropWhile isJsWhitespace) = jsTrim u ++
      ((u.dropWhile isJsWhitespace).reverse.takeWhile isJsWhitespace).reverse := by
    conv_lhs => rw [← List.reverse_reverse (u.dropWhile isJsWhitespace),
      ← List.takeWhile_append_dropWhile isJsWhitespace (u.dropWhile isJsWhitespace).reverse,
      List.reverse_append]
    rw [jsTrim]
  have hhead : (u.dropWhile isJsWhitespace).head? = some c := by
    rw [hpre, List.head?_append, h]
    rfl
  exact head?_dropWhile_ws hhead

theorem jsTrim_getLast_not_ws {u : List Char} {c : Char}
    (h : (jsTrim u).getLast? = some c) : isJsWhitespace c = false := by
  rw [jsTrim, List.getLast?_reverse] at h
  exact head?_dropWhile_ws h

theorem nonBlankTail_of_cons {c : Char} {w : List Char}
    (h : NonBlankTail (c :: w)) : NonBlankTail w := by
  by_cases hn : c = '\n'
  · rw [hn, NonBlankTail, splitLines, List.tail_cons] at h
    exact nonBlankTail_of_nonBlankLines h
  · by_cases hr : c = '\r' ∧ ∃ w2 : List Char, w = '\n' :: w2
    · obtain ⟨hc, w2, hw⟩ := hr
      rw [hc, hw] at h
      rw [NonBlankTail, splitLines, List.tail_cons] at h
      rw [hw, NonBlankTail, splitLines, List.tail_cons]
      exact h
    · have h1 : ∀ r2 : List Char, c = '\r' → w = '\n' :: r2 → False :=
        fun r2 hc hw => hr ⟨hc, r2, hw⟩
      have h2 : c = '\n' → False := fun hc => hn hc
      rw [NonBlankTail, splitLines_cons_generic c w h1 h2] at h
      rcases hw : splitLines w with _ | ⟨l, ls⟩
      · exact absurd hw (splitLines_ne_nil w)
      · rw [hw] at h
        rw [NonBlankTail, hw, List.tail_cons]
        rw [List.tail_cons] at h
        exact h

theorem nonBlankTail_of_append (pre : List Char) {rest : List Char}
    (h : NonBlankTail (pre ++ rest)) : NonBlankTail rest := by
  induction pre with
  | nil => exact h
  | cons c pre2 ih =>
    rw [List.cons_append] at h
    exact ih (nonBlankTail_of_cons h)

theorem splitLines_append_head (post : List Char) :
    ∀ w l0 : List Char, ∀ ls0 : List (List Char),
      splitLines w = l0 :: ls0 → ls0 ≠ [] →
      ∃ ms : List (List Char), splitLines (w ++ post) = l0 :: ms := by
  intro w
  induction w using splitLines.induct with
  | case1 =>
    intro l0 ls0 hw hne
    rw [splitLines] at hw
    rw [List.cons.injEq] at hw
    exact absurd hw.2.symm hne
  | case2 rest ih =>
    intro l0 ls0 hw hne
    rw [splitLines] at hw
    rw [List.cons.injEq] at hw
    rw [List.cons_append, List.cons_append, splitLines, ← hw.1]
    exact ⟨splitLines (rest ++ post), rfl⟩
  | case3 rest ih =>
    intro l0 ls0 hw hne
    rw [splitLines] at hw
    rw [List.cons.injEq] at hw
    rw [List.cons_append, splitLines, ← hw.1]
    exact ⟨splitLines (rest ++ post), rfl⟩
  | case4 c rest h1 h2 hnil ih =>
    intro l0 ls0 hw hne
    exact absurd hnil (splitLines_ne_nil rest)
  | case5 c rest h1 h2 l ls heq ih =>
    intro l0 ls0 hw hne
    rw [splitLines_cons_generic c rest h1 h2, heq] at hw
    rw [List.cons.injEq] at hw
    have hls : ls ≠ [] := by
      rw [hw.2]
      exact hne
    have hrestne : rest ≠ [] := by
      intro hr
      rw [hr, splitLines] at heq
      rw [List.cons.injEq] at heq
      exact hls heq.2.symm
    have h1' : ∀ r2 : List Char, c = '\r' → rest ++ post = '\n' :: r2 → False := by
      intro r2 hc hrp
      rcases hrest : rest with _ | ⟨rc, rtl⟩
      · exact hrestne hrest
      · rw [hrest, List.cons_append, List.cons.injEq] at hrp
        exact h1 rtl hc (by rw [hrest, hrp.1])
    rcases ih l ls heq hls with ⟨ms, hms⟩
    rw [List.cons_append, splitLines_cons_generic c (rest ++ post) h1' h2, hms]
    refine ⟨ms, ?_⟩
    rw [← hw.1]

theorem splitLines_singleton :
    ∀ w l : List Char, splitLines w = [l] → w = l := by
  intro w
  induction w using splitLines.induct with
  | case1 =>
    intro l h
    rw [splitLines] at h
    rw [List.cons.injEq] at h
    exact h.1
  | case2 rest ih =>
    intro l h
    rw [splitLines] at h
    rw [List.cons.injEq] at h
    exact absurd h.2 (splitLines_ne_nil rest)
  | case3 rest ih =>
    intro l h
    rw [splitLines] at h
    rw [List.cons.injEq] at h
    exact absurd h.2 (splitLines_ne_nil rest)
  | case4 c rest h1 h2 hnil ih =>
    intro l h
    exact absurd hnil (splitLines_ne_nil rest)
  | case5 c rest h1 h2 l2 ls2 heq ih =>
    intro l h
    rw [splitLines_cons_generic c rest h1 h2, heq] at h
    rw [List.cons.injEq] at h
    have hr : rest = l2 := ih l2 (by rw [heq, h.2])
    rw [← h.1, hr]

theorem getLast?_cons_of_ne_nil {α : Type} (x : α) {w : List α} (hw : w ≠ []) :
    (x :: w).getLast? = w.getLast? := by
  cases w with
  | nil => exact absurd rfl hw
  | cons a b => exact List.getLast?_cons_cons

theorem prefix_lines_nonblank (post : List Char) :
    ∀ v : List Char, v ≠ [] →
      (∀ c : Char, v.getLast? = some c → isJsWhitespace c = false) →
      ((NonBlankTail (v ++ post) → ∀ l ∈ (splitLines v).tail, nonWs l ≠ [])
        ∧ (NonBlankLines (v ++ post) → NonBlankLines v)) := by
  intro v
  induction v using splitLines.induct with
  | case1 =>
    intro hne hlast
    exact absurd rfl hne
  | case2 rest ih =>
    intro hne hlast
    by_cases hrne : rest = []
    · exfalso
      have hws := hlast '\n' (by rw [hrne]; rfl)
      simp [isJsWhitespace] at hws
    · have hlast2 : ∀ c2 : Char, rest.getLast? = some c2 → isJsWhitespace c2 = false := by
        intro c2 hc2
        apply hlast
        rw [getLast?_cons_of_ne_nil '\r' (by simp), getLast?_cons_of_ne_nil '\n' hrne]
        exact hc2
      constructor
      · intro hA
        rw [splitLines, List.tail_cons]
        have hNB : NonBlankLines (rest ++ post) := by
          rw [NonBlankTail, List.cons_append, List.cons_append, splitLines,
            List.tail_cons] at hA
          exact hA
        exact (ih hrne hlast2).2 hNB
      · intro hB
        exfalso
        rw [NonBlankLines, List.cons_append, List.cons_append, splitLines] at hB
        exact hB [] (List.mem_cons_self _ _) rfl
  | case3 rest ih =>
    intro hne hlast
    by_cases hrne : rest = []
    · exfalso
      have hws := hlast '\n' (by rw [hrne]; rfl)
      simp [isJsWhitespace] at hws
    · have hlast2 : ∀ c2 : Char, rest.getLast? = some c2 → isJsWhitespace c2 = false := by
        intro c2 hc2
        apply hlast
        rw [getLast?_cons_of_ne_nil '\n' hrne]
        exact hc2
      constructor
      · intro hA
        rw [splitLines, List.tail_cons]
        have hNB : NonBlankLines (rest ++ post) := by
          rw [NonBlankTail, List.cons_append, splitLines, List.tail_cons] at hA
          exact hA
        exact (ih hrne hlast2).2 hNB
      · intro hB
        exfalso
        rw [NonBlankLines, List.cons_append, splitLines] at hB
        exact hB [] (List.mem_cons_self _ _) rfl
  | case4 c rest h1 h2 hnil ih =>
    intro hne hlast
    exact absurd hnil (splitLines_ne_nil rest)
  | case5 c rest h1 h2 l ls heq ih =>
    intro hne hlast
    by_cases hrnil : rest = []
    · have hl0 : l = [] ∧ ls = [] := by
        rw [hrnil, splitLines] at heq
        rw [List.cons.injEq] at heq
        exact ⟨heq.1.symm, heq.2.symm⟩
      constructor
      · intro hA
        rw [splitLines_cons_generic c rest h1 h2, heq, hl0.2, List.tail_cons]
        intro l' hl'
        cases hl'
      · intro hB
        rw [NonBlankLines, splitLines_cons_generic c rest h1 h2, heq, hl0.1, hl0.2]
        intro l' hl'
        rw [List.mem_singleton.mp hl']
        have hcws : isJsWhitespace c = false := hlast c (by rw [hrnil]; rfl)
        exact nonWs_ne_nil_of_mem (List.mem_singleton_self c) hcws
    · have hrne : rest ≠ [] := hrnil
      have hlast2 : ∀ c2 : Char, rest.getLast? = some c2 → isJsWhitespace c2 = false := by
        intro c2 hc2
        apply hlast
        rw [getLast?_cons_of_ne_nil c hrne]
        exact hc2
      have h1' : ∀ r2 : List Char, c = '\r' → rest ++ post = '\n' :: r2 → False := by
        intro r2 hc hrp
        cases hrest2 : rest with
        | nil => exact hrne hrest2
        | cons rc rtl =>
          rw [hrest2, List.cons_append, List.cons.injEq] at hrp
          exact h1 rtl hc (by rw [hrest2, hrp.1])
      rcases hmp : splitLines (rest ++ post) with _ | ⟨m, ms⟩
      · exact absurd hmp (splitLines_ne_nil (rest ++ post))
      · have hvp : splitLines ((c :: rest) ++ post) = (c :: m) :: ms := by
          rw [List.cons_append, splitLines_cons_generic c (rest ++ post) h1' h2, hmp]
        constructor
        · intro hA
          have hArest : NonBlankTail (rest ++ post) := by
            rw [NonBlankTail, hmp, List.tail_cons]
            rw [NonBlankTail, hvp, List.tail_cons] at hA
            exact hA
          have htail := (ih hrne hlast2).1 hArest
          rw [heq, List.tail_cons] at htail
          rw [splitLines_cons_generic c rest h1 h2, heq, List.tail_cons]
          exact htail
        · intro hB
          rw [NonBlankLines, hvp] at hB
          have hArest : NonBlankTail (rest ++ post) := by
            rw [NonBlankTail, hmp, List.tail_cons]
            exact fun l' h' => hB l' (List.mem_cons_of_mem _ h')
          have htail := (ih hrne hlast2).1 hArest
          rw [heq, List.tail_cons] at htail
          rw [NonBlankLines, splitLines_cons_generic c rest h1 h2, heq]
          intro l' hl'
          rcases List.mem_cons.mp hl' with hh | hh
          · rw [hh]
            rcases hlsnil : ls with _ | ⟨ls1, ls2⟩
            · have hrl : rest = l := splitLines_singleton rest l (by rw [heq, hlsnil])
              have hcws := hlast2 _ (List.getLast?_eq_getLast rest hrne)
              refine nonWs_ne_nil_of_mem ?_ hcws
              rw [← hrl]
              exact List.mem_cons_of_mem c (List.getLast_mem hrne)
            · rcases splitLines_append_head post rest l ls heq (by rw [hlsnil]; simp)
                with ⟨ms2, hms2⟩
              rw [hmp, List.cons.injEq] at hms2
              rw [← hms2.1]
              exact hB (c :: m) (List.mem_cons_self _ _)
          · exact htail l' hh

theorem sub_lines_nonblank {t : List Char} (hNB : NonBlankLines t)
    (v pre post : List Char) (hsub : t = pre ++ (v ++ post)) (hne : v ≠ [])
    (hhead : ∀ c : Char, v.head? = some c → isJsWhitespace c = false)
    (hlast : ∀ c : Char, v.getLast? = some c → isJsWhitespace c = false) :
    NonBlankLines v := by
  have htail : NonBlankTail (v ++ post) := by
    apply nonBlankTail_of_append pre
    rw [← hsub]
    exact nonBlankTail_of_nonBlankLines hNB
  have hA := (prefix_lines_nonblank post v hne hlast).1 htail
  rcases hv : v with _ | ⟨c, v2⟩
  · exact absurd hv hne
  · have hc : isJsWhitespace c = false := hhead c (by rw [hv]; rfl)
    have hcn : c = '\n' → False := by
      intro h
      rw [h] at hc
      simp [isJsWhitespace] at hc
    have hcr : ∀ r2 : List Char, c = '\r' → v2 = '\n' :: r2 → False := by
      intro r2 h _
      rw [h] at hc
      simp [isJsWhitespace] at hc
    rcases hl2 : splitLines v2 with _ | ⟨l0, ls0⟩
    · exact absurd hl2 (splitLines_ne_nil v2)
    · rw [hv] at hA
      rw [splitLines_cons_generic c v2 hcr hcn, hl2, List.tail_cons] at hA
      rw [NonBlankLines, splitLines_cons_generic c v2 hcr hcn, hl2]
      intro l' hl'
      rcases List.mem_cons.mp hl' with hh | hh
      · rw [hh]
        exact nonWs_ne_nil_of_mem (List.mem_cons_self c l0) hc
      · exact hA l' hh

theorem jsTrim_sub_lines_nonblank {t : List Char} (hNB : NonBlankLines t)
    (u pre post : List Char) (hsub : t = pre ++ (u ++ post))
    (hne : jsTrim u ≠ []) : NonBlankLines (jsTrim u) := by
  rcases jsTrim_decomposition u with ⟨a, b, hu⟩
  have hsub2 : t = (pre ++ a) ++ (jsTrim u ++ (b ++ post)) := by
    rw [hsub]
    conv_lhs => rw [hu]
    simp [List.append_assoc]
  exact sub_lines_nonblank hNB (jsTrim u) (pre ++ a) (b ++ post) hsub2 hne
    (fun c hc => jsTrim_head_not_ws hc) (fun c hc => jsTrim_getLast_not_ws hc)

theorem jsSubstring_sub (text : List Char) (a b : Nat) :
    ∃ pre post, text = pre ++ (jsSubstring text a b ++ post) := by
  refine ⟨(text.take b).take a, text.drop b, ?_⟩
  rw [jsSubstring, ← List.append_assoc, List.take_append_drop, List.take_append_drop]

theorem drop_sub (text : List Char) (a : Nat) :
    ∃ pre post, text = pre ++ (text.drop a ++ post) :=
  ⟨text.take a, [], by rw [List.append_nil, List.take_append_drop]⟩

theorem pushSection_ne_nil_of_sub {text : List Char} (hNB : NonBlankLines text)
    {u pre post : List Char} (hsub : text = pre ++ (u ++ post)) (maxChunkSize : Nat) :
    ∀ c ∈ pushSection maxChunkSize (jsTrim u), c ≠ [] := by
  intro ch hch
  rw [pushSection] at hch
  by_cases h0 : 0 < (jsTrim u).length
  · have hne : jsTrim u ≠ [] := by
      intro h
      rw [h] at h0
      cases h0
    rw [if_pos h0] at hch
    by_cases hbig : maxChunkSize < (jsTrim u).length
    · rw [if_pos hbig] at hch
      rw [chunkByLine] at hch
      exact chunkByLineLoop_ne_nil maxChunkSize (splitLines (jsTrim u)) []
        (jsTrim_sub_lines_nonblank hNB u pre post hsub hne) (Or.inl rfl) ch hch
    · rw [if_neg hbig] at hch
      rw [List.mem_singleton.mp hch]
      exact hne
  · rw [if_neg h0] at hch
    cases hch

theorem chunkSections_ne_nil {text : List Char} (hNB : NonBlankLines text)
    (maxChunkSize : Nat) (idxs : List Nat) (lastIndex : Nat) :
    ∀ c ∈ chunkSections maxChunkSize text idxs lastIndex, c ≠ [] := by
  induction idxs generalizing lastIndex with
  | nil =>
    intro c hc
    rw [chunkSections] at hc
    by_cases h : lastIndex < text.length
    · rw [if_pos h] at hc
      rcases drop_sub text lastIndex with ⟨pre, post, hsub⟩
      exact pushSection_ne_nil_of_sub hNB hsub maxChunkSize c hc
    · rw [if_neg h] at hc
      cases hc
  | cons s rest ih =>
    intro c hc
    rw [chunkSections] at hc
    rcases List.mem_append.mp hc with h | h
    · by_cases hlt : lastIndex < s
      · rw [if_pos hlt] at h
        rcases jsSubstring_sub text lastIndex s with ⟨pre, post, hsub⟩
        exact pushSection_ne_nil_of_sub hNB hsub maxChunkSize c h
      · rw [if_neg hlt] at h
        cases h
    · exact ih s c h

/-- Claim C1: every chunk the chunker returns has length at most
`maxChunkSize`, except a chunk that consists of a single line (it contains
no newline) whose own length already exceeds the bound; such an oversized
line is emitted whole, neither truncated nor rejected.  The theorem holds
for every list of boundary-match offsets, hence for whatever the
declaration regex produces. -/
theorem chunkText_chunk_size_bound (idxs : List Nat) (text : List Char)
    (maxChunkSize : Nat) :
    (chunkTextWith idxs text maxChunkSize).all
      (fun c => decide (c.length ≤ maxChunkSize) || !(decide ('\n' ∈ c))) = true := by
  rw [List.all_eq_true]
  intro c hc
  rcases chunkTextWith_size idxs text maxChunkSize c hc with h | h
  · simp [h]
  · simp [h]

/-- Claim C2, counterexample: the chunker is claimed to return only
non-empty strings for every text and maxSize, but for the text `"\n\n"`
with `maxSize = 1` (on which the declaration regex has no match, so the
offset list is empty) the line fallback flushes a whitespace-only buffer,
whose trim is the empty string: the empty chunk is in the result. -/
theorem chunkText_emits_empty_chunk :
    [] ∈ chunkTextWith [] ("\n\n".toList) 1 := by decide

/-- Claim C2, amended: for every list of boundary-match offsets, chunks are
non-empty provided every line of the text has a non-whitespace character.
The proviso is exactly what the counterexample forces: the code checks the
buffer for non-emptiness before trimming it, so a whitespace-only buffer
(possible only when some line is entirely whitespace) escapes as an empty
chunk.  With it, both branches are covered: the boundary branch hands the
line fallback only trimmed contiguous sections of the text, whose interior
lines are complete lines of the text and whose first and last lines keep
the non-whitespace characters that survived trimming. -/
theorem chunkText_nonempty_of_nonblank_lines (idxs : List Nat) (text : List Char)
    (maxChunkSize : Nat) (hlines : ∀ l ∈ splitLines text, nonWs l ≠ []) :
    (chunkTextWith idxs text maxChunkSize).all (fun c => !c.isEmpty) = true := by
  rw [List.all_eq_true]
  intro c hc
  suffices hne : c ≠ [] by
    simp [List.isEmpty_iff, hne]
  rw [chunkTextWith] at hc
  by_cases hsmall : text.length ≤ maxChunkSize
  · rw [if_pos hsmall] at hc
    rw [List.mem_singleton.mp hc]
    intro htext
    refine hlines [] ?_ rfl
    rw [htext]
    exact List.mem_singleton_self []
  · rw [if_neg hsmall] at hc
    by_cases hmany : 1 < idxs.length
    · rw [if_pos hmany] at hc
      exact chunkSections_ne_nil hlines maxChunkSize idxs 0 c hc
    · rw [if_neg hmany] at hc
      rw [chunkByLine] at hc
      exact chunkByLineLoop_ne_nil maxChunkSize (splitLines text) [] hlines (Or.inl rfl) c hc

/-- Claim C2, witness: a non-blank-lined text chunked through the boundary
branch (two match offsets) yields only non-empty chunks. -/
theorem chunkText_nonempty_witness :
    (chunkTextWith [2, 5] ("abc\ndef".toList) 2).all (fun c => !c.isEmpty) = true :=
  chunkText_nonempty_of_nonblank_lines [2, 5] ("abc\ndef".toList) 2 (by decide)

/-- Claim C7: for a text longer than `maxChunkSize` on which the
declaration regex finds at most one boundary (so the line fallback handles
the whole text), concatenating all returned chunks reproduces the text up
to whitespace: the sequence of non-whitespace characters is preserved
exactly — nothing dropped, nothing duplicated, order intact. -/
theorem chunkText_concat_preserves_text (idxs : List Nat) (text : List Char)
    (maxChunkSize : Nat) (hidx : idxs.length ≤ 1)
    (hbig : maxChunkSize < text.length) :
    nonWs ((chunkTextWith idxs text maxChunkSize).flatten) = nonWs text := by
  rw [chunkTextWith, if_neg (Nat.not_le_of_lt hbig),
    if_neg (show ¬ 1 < idxs.length by omega), nonWs_flatten, chunkByLine_flatten]

/-- Claim C7, witness: the oversized two-line text is split and its
non-whitespace content survives unchanged. -/
theorem chunkText_concat_preserves_text_witness :
    nonWs ((chunkTextWith [] ("ab\ncd".toList) 3).flatten) = nonWs ("ab\ncd".toList) :=
  chunkText_concat_preserves_text [] ("ab\ncd".toList) 3 (by decide) (by decide)

/-! ## Lemmas on persistence -/

theorem filterMap_asNum_map_num {α : Type} (xs : List α) :
    (xs.map (Json.num (α := α))).filterMap asNum = xs := by
  induction xs with
  | nil => rfl
  | cons x rest ih =>
    rw [List.map_cons, List.filterMap_cons]
    simp only [asNum]
    rw [ih]

theorem decodeChunk_encodeChunk {α : Type} (c : DocumentChunk α) :
    decodeChunk (encodeChunk c) = c := by
  cases c with
  | mk content embedding metadata =>
    cases metadata with
    | mk source ty =>
      have h1 : ("embedding".toList = "content".toList) = False := by decide
      have h2 : ("metadata".toList = "embedding".toList) = False := by decide
      have h3 : ("metadata".toList = "content".toList) = False := by decide
      have h4 : ("type".toList = "source".toList) = False := by decide
      simp [encodeChunk, decodeChunk, getField, decodeMeta, asString, asNumArr,
        filterMap_asNum_map_num, h1, h2, h3, h4]
      rw [show (asNum ∘ Json.num : α → Option α) = some from rfl]
      exact List.filterMap_some embedding

theorem decodeKB_encodeKB {α : Type} (kb : List (DocumentChunk α)) :
    decodeKB (encodeKB kb) = kb := by
  rw [encodeKB, decodeKB, List.map_map]
  have : (decodeChunk ∘ encodeChunk) = (id : DocumentChunk α → DocumentChunk α) := by
    funext c
    exact decodeChunk_encodeChunk c
  rw [this, List.map_id]

/-! ## Claims about persistence -/

/-- Claim C3: saving a non-empty knowledge base and loading it back from
the same location restores exactly the ordered chunk sequence — content,
embedding, source and type of every chunk — with no error, whatever was in
the store before the load.  (The JSON tree keeps the numeric scalars
structurally, matching JavaScript's exact stringify/parse round-trip of
finite floats.) -/
theorem saveLoad_roundtrip {α : Type} (fs : Fs α) (filePath : List Char)
    (kb kb0 : List (DocumentChunk α)) (hne : kb ≠ []) :
    loadKnowledgeBase (saveKnowledgeBase fs filePath kb).1 filePath kb0 = (kb, none) := by
  rw [saveKnowledgeBase, if_neg (by simpa using hne), loadKnowledgeBase]
  simp [fsWrite, lookupFile, decodeKB_encodeKB]

/-- Claim C3, witness: a concrete one-chunk store round-trips through an
empty filesystem. -/
theorem saveLoad_roundtrip_witness :
    loadKnowledgeBase
        (saveKnowledgeBase ([] : Fs Int) ("data/kb.json".toList)
          [⟨"export const x = 1".toList, [1, 0], ⟨"a.ts".toList, "code".toList⟩⟩]).1
        ("data/kb.json".toList) []
      = ([⟨"export const x = 1".toList, [1, 0], ⟨"a.ts".toList, "code".toList⟩⟩], none) :=
  saveLoad_roundtrip [] ("data/kb.json".toList)
    [⟨"export const x = 1".toList, [1, 0], ⟨"a.ts".toList, "code".toList⟩⟩] []
    (by simp)

/-- Claim C4, counterexample: loading from a location that does not exist
is claimed to fail with a NotFound condition surfaced to the caller, but
`loadKnowledgeBase` only logs the missing file with `console.error` and
returns normally — here, on an empty filesystem, the call returns with no
exception and the store untouched. -/
theorem load_missing_returns_normally :
    loadKnowledgeBase ([] : Fs Int) ("data/kb.json".toList)
        [⟨"x".toList, [2], ⟨"a.ts".toList, "code".toList⟩⟩]
      = ([⟨"x".toList, [2], ⟨"a.ts".toList, "code".toList⟩⟩], none) := rfl

/-- Claim C4, amended: for a location that does not exist the load is a
logged no-op — it returns normally with the in-memory store unchanged, and
no NotFound condition reaches the caller; for a location that exists with
parsable contents the parsed snapshot replaces the in-memory store
entirely (the result is independent of the previous store, so nothing is
merged). -/
theorem load_missing_noop_load_existing_replaces {α : Type} (fs : Fs α)
    (filePath : List Char) (kb : List (DocumentChunk α)) :
    (lookupFile fs filePath = none → loadKnowledgeBase fs filePath kb = (kb, none))
    ∧ (∀ j : Json α, lookupFile fs filePath = some (.parsable j) →
        loadKnowledgeBase fs filePath kb = (decodeKB j, none)) := by
  constructor
  · intro h
    rw [loadKnowledgeBase, h]
  · intro j h
    rw [loadKnowledgeBase, h]

/-- Claim C4, witness: both branches of the amended claim at concrete
inputs — an empty filesystem (missing location) and a filesystem holding a
parsable snapshot (replaced store). -/
theorem load_missing_noop_witness :
    loadKnowledgeBase ([] : Fs Int) ("kb.json".toList) [] = ([], none)
    ∧ loadKnowledgeBase [(("kb.json".toList : List Char),
          FileContent.parsable (encodeKB [⟨"y".toList, [3], ⟨"b.ts".toList, "code".toList⟩⟩]))]
        ("kb.json".toList) []
      = (decodeKB (encodeKB [⟨"y".toList, [3], ⟨"b.ts".toList, "code".toList⟩⟩]), none) :=
  ⟨(load_missing_noop_load_existing_replaces [] ("kb.json".toList) []).1 rfl,
    (load_missing_noop_load_existing_replaces _ ("kb.json".toList) []).2 _ rfl⟩

/-- Claim C8: saving an empty knowledge base is a guarded no-op — the
empty-store warning is logged, the filesystem is returned unchanged (no
write to the target location, so a previously persisted larger snapshot
survives); saving a non-empty store overwrites the location with the full
serialised store. -/
theorem save_empty_guard_save_nonempty_overwrites {α : Type} (fs : Fs α)
    (filePath : List Char) (kb : List (DocumentChunk α)) :
    (kb = [] → saveKnowledgeBase fs filePath kb = (fs, [emptyStoreWarning]))
    ∧ (kb ≠ [] → lookupFile (saveKnowledgeBase fs filePath kb).1 filePath
        = some (.parsable (encodeKB kb))) := by
  constructor
  · intro h
    rw [saveKnowledgeBase, if_pos (by simp [h])]
  · intro h
    rw [saveKnowledgeBase, if_neg (by simpa using h)]
    simp [fsWrite, lookupFile]

/-- Claim C8, witness: the empty store leaves a filesystem holding a prior
snapshot untouched and logs the warning; a one-chunk store overwrites the
location. -/
theorem save_empty_guard_witness :
    saveKnowledgeBase
        [(("kb.json".toList : List Char),
          FileContent.parsable (encodeKB [⟨"old".toList, [(7 : Int)], ⟨"c.ts".toList, "code".toList⟩⟩]))]
        ("kb.json".toList) []
      = ([(("kb.json".toList : List Char),
          FileContent.parsable (encodeKB [⟨"old".toList, [(7 : Int)], ⟨"c.ts".toList, "code".toList⟩⟩]))],
          [emptyStoreWarning])
    ∧ lookupFile
        (saveKnowledgeBase ([] : Fs Int) ("kb.json".toList)
          [⟨"new".toList, [8], ⟨"d.ts".toList, "code".toList⟩⟩]).1 ("kb.json".toList)
      = some (.parsable (encodeKB [⟨"new".toList, [8], ⟨"d.ts".toList, "code".toList⟩⟩])) :=
  ⟨(save_empty_guard_save_nonempty_overwrites _ ("kb.json".toList) []).1 rfl,
    (save_empty_guard_save_nonempty_overwrites [] ("kb.json".toList) _).2 (by simp)⟩

/-- Claim C10: loading from a location whose file exists but holds
unparseable data raises the parse failure for that attempt (`JSON.parse`
throws before the store is assigned), and the in-memory knowledge base is
left exactly as it was before the call. -/
theorem load_malformed_error_preserves_store {α : Type} (fs : Fs α)
    (filePath : List Char) (kb : List (DocumentChunk α))
    (h : lookupFile fs filePath = some .malformed) :
    loadKnowledgeBase fs filePath kb = (kb, some .parseError) := by
  rw [loadKnowledgeBase, h]

/-- Claim C10, witness: a filesystem holding a malformed snapshot makes
the load fail while a concrete prior store survives unchanged. -/
theorem load_malformed_witness :
    loadKnowledgeBase [(("kb.json".toList : List Char), (FileContent.malformed : FileContent Int))]
        ("kb.json".toList) [⟨"z".toList, [5], ⟨"e.ts".toList, "code".toList⟩⟩]
      = ([⟨"z".toList, [5], ⟨"e.ts".toList, "code".toList⟩⟩], some .parseError) :=
  load_malformed_error_preserves_store _ ("kb.json".toList) _ rfl

/-! ## Claims about the incremental updater -/

theorem updateKnowledgeBaseLoop_append {α : Type} (tree : SrcFs) (repoPath : List Char)
    (embedF : List Char → List α) (regexIdx : List Char → List Nat)
    (changedFiles : List (List Char)) (kb : List (DocumentChunk α)) :
    updateKnowledgeBaseLoop tree repoPath embedF regexIdx changedFiles kb
      = kb ++ ((changedFiles.map (chunksForChangedFile tree repoPath embedF regexIdx)).flatten) := by
  induction changedFiles generalizing kb with
  | nil => simp [updateKnowledgeBaseLoop]
  | cons p rest ih =>
    rw [updateKnowledgeBaseLoop, ih, List.map_cons, List.flatten_cons, List.append_assoc]

/-- Claim C9: the incremental updater only ever appends — every chunk in
the store before the call is still present, unchanged and in place
afterwards (the prior store is a prefix of the new one) — and a changed
path that no longer exists in the working tree contributes no chunk at
all; the call is a total function of the store, so no listed path makes it
throw. -/
theorem update_appends_and_skips_missing {α : Type} (tree : SrcFs) (repoExists : Bool)
    (repoPath : List Char) (embedF : List Char → List α)
    (regexIdx : List Char → List Nat) (kb : List (DocumentChunk α))
    (changedFiles : List (List Char)) :
    updateKnowledgeBase tree repoExists repoPath embedF regexIdx kb changedFiles
      = kb ++ (if repoExists
          then (changedFiles.map (chunksForChangedFile tree repoPath embedF regexIdx)).flatten
          else [])
    ∧ (∀ p : List Char, lookupFile tree (pathJoin repoPath p) = none →
        chunksForChangedFile tree repoPath embedF regexIdx p = []) := by
  constructor
  · rw [updateKnowledgeBase]
    by_cases h : repoExists = true
    · rw [if_pos h, if_pos h, updateKnowledgeBaseLoop_append]
    · rw [if_neg h, if_neg h, List.append_nil]
  · intro p hp
    rw [chunksForChangedFile]
    by_cases hex : excludedChangedFile p = true
    · rw [if_pos hex]
    · rw [if_neg hex, hp]

/-- Claim C9, witness: with an empty working tree the one changed path is
missing on disk, so the store comes back exactly as it was and the path
contributes no chunk. -/
theorem update_appends_witness :
    updateKnowledgeBase ([] : SrcFs) true ("repo".toList) (fun _ => ([0] : List Int))
        (fun _ => []) [⟨"w".toList, [9], ⟨"f.ts".toList, "code".toList⟩⟩] ["gone.ts".toList]
      = [⟨"w".toList, [9], ⟨"f.ts".toList, "code".toList⟩⟩]
        ++ (if true
            then ((["gone.ts".toList].map
              (chunksForChangedFile [] ("repo".toList) (fun _ => ([0] : List Int)) (fun _ => []))).flatten)
            else [])
    ∧ chunksForChangedFile ([] : SrcFs) ("repo".toList) (fun _ => ([0] : List Int))
        (fun _ => []) ("gone.ts".toList) = [] :=
  ⟨(update_appends_and_skips_missing [] true ("repo".toList) (fun _ => ([0] : List Int))
      (fun _ => []) [⟨"w".toList, [9], ⟨"f.ts".toList, "code".toList⟩⟩] ["gone.ts".toList]).1,
    (update_appends_and_skips_missing [] true ("repo".toList) (fun _ => ([0] : List Int))
      (fun _ => []) [⟨"w".toList, [9], ⟨"f.ts".toList, "code".toList⟩⟩] ["gone.ts".toList]).2
      ("gone.ts".toList) rfl⟩

/-! ## Lemmas on similarity -/

theorem dotList_cons (x y : ℝ) (xs ys : List ℝ) :
    dotList (x :: xs) (y :: ys) = x * y + dotList xs ys := by
  rw [dotList, List.zipWith_cons_cons, List.sum_cons, dotList]

theorem dotList_nil_right (a : List ℝ) : dotList a [] = 0 := by
  cases a <;> rfl

theorem dotList_self_nonneg (a : List ℝ) : 0 ≤ dotList a a := by
  induction a with
  | nil => simp [dotList]
  | cons x xs ih =>
    rw [dotList_cons]
    nlinarith [mul_self_nonneg x]

theorem cauchy_schwarz_step (x y A B d : ℝ) (hA : 0 ≤ A) (hB : 0 ≤ B)
    (hd : d ^ 2 ≤ A * B) : (x * y + d) ^ 2 ≤ (x * x + A) * (y * y + B) := by
  rcases eq_or_lt_of_le hB with hB0 | hBpos
  · have hd0 : d = 0 := by nlinarith [sq_nonneg d]
    rw [hd0, ← hB0]
    nlinarith [mul_nonneg hA (sq_nonneg y), sq_nonneg (x * y)]
  · nlinarith [sq_nonneg (x * B - y * d), mul_nonneg hB (sub_nonneg.mpr hd),
      mul_nonneg hA hB]

theorem dotList_sq_le (a b : List ℝ) :
    (dotList a b) ^ 2 ≤ (dotList a a) * (dotList b b) := by
  induction a generalizing b with
  | nil => simp [dotList]
  | cons x xs ih =>
    cases b with
    | nil => simp [dotList_nil_right, dotList]
    | cons y ys =>
      rw [dotList_cons, dotList_cons, dotList_cons]
      exact cauchy_schwarz_step x y (dotList xs xs) (dotList ys ys) (dotList xs ys)
        (dotList_self_nonneg xs) (dotList_self_nonneg ys) (ih ys)

theorem cosineSimilarity_le_one (a b : List ℝ) : cosineSimilarity a b ≤ 1 := by
  rw [cosineSimilarity]
  by_cases hz : Real.sqrt (dotList a a) * Real.sqrt (dotList b b) = 0
  · rw [hz, div_zero]
    exact zero_le_one
  · have hpos : 0 < Real.sqrt (dotList a a) * Real.sqrt (dotList b b) :=
      lt_of_le_of_ne (mul_nonneg (Real.sqrt_nonneg _) (Real.sqrt_nonneg _)) (Ne.symm hz)
    rw [div_le_one hpos]
    calc dotList a b ≤ |dotList a b| := le_abs_self _
      _ = Real.sqrt ((dotList a b) ^ 2) := (Real.sqrt_sq_eq_abs _).symm
      _ ≤ Real.sqrt ((dotList a a) * (dotList b b)) := Real.sqrt_le_sqrt (dotList_sq_le a b)
      _ = Real.sqrt (dotList a a) * Real.sqrt (dotList b b) :=
          Real.sqrt_mul (dotList_self_nonneg a) _

theorem cosineSimilarity_self (q : List ℝ) (hq : dotList q q ≠ 0) :
    cosineSimilarity q q = 1 := by
  rw [cosineSimilarity, Real.mul_self_sqrt (dotList_self_nonneg q), div_self hq]

/-! ## Lemmas on the stable descending sort -/

theorem insertScored_perm (x : ScoredDoc) (l : List ScoredDoc) :
    List.Perm (insertScored x l) (x :: l) := by
  induction l with
  | nil => rfl
  | cons y ys ih =>
    rw [insertScored]
    by_cases h : y.similarity ≤ x.similarity
    · rw [if_pos h]
    · rw [if_neg h]
      exact (ih.cons y).trans (List.Perm.swap x y ys)

theorem sortScored_perm (l : List ScoredDoc) : List.Perm (sortScored l) l := by
  induction l with
  | nil => rfl
  | cons x xs ih =>
    rw [sortScored]
    exact (insertScored_perm x (sortScored xs)).trans (ih.cons x)

theorem insertScored_pairwise {x : ScoredDoc} {l : List ScoredDoc}
    (h : l.Pairwise (fun a b => b.similarity ≤ a.similarity)) :
    (insertScored x l).Pairwise (fun a b => b.similarity ≤ a.similarity) := by
  induction l with
  | nil =>
    rw [insertScored]
    exact List.pairwise_singleton _ x
  | cons y ys ih =>
    rcases List.pairwise_cons.mp h with ⟨hy, hys⟩
    rw [insertScored]
    by_cases hle : y.similarity ≤ x.similarity
    · rw [if_pos hle]
      refine List.pairwise_cons.mpr ⟨?_, h⟩
      intro z hz
      rcases List.mem_cons.mp hz with hzy | hzys
      · rw [hzy]
        exact hle
      · exact le_trans (hy z hzys) hle
    · rw [if_neg hle]
      refine List.pairwise_cons.mpr ⟨?_, ih hys⟩
      intro z hz
      have hz2 := (insertScored_perm x ys).subset hz
      rcases List.mem_cons.mp hz2 with hzx | hzys
      · rw [hzx]
        exact le_of_lt (lt_of_not_le hle)
      · exact hy z hzys

theorem sortScored_pairwise (l : List ScoredDoc) :
    (sortScored l).Pairwise (fun a b => b.similarity ≤ a.similarity) := by
  induction l with
  | nil => exact List.Pairwise.nil
  | cons x xs ih =>
    rw [sortScored]
    exact insertScored_pairwise ih

theorem filter_insertScored (v : ℝ) (x : ScoredDoc) (l : List ScoredDoc) :
    (insertScored x l).filter (fun e => decide (e.similarity = v))
      = (x :: l).filter (fun e => decide (e.similarity = v)) := by
  induction l with
  | nil => rfl
  | cons y ys ih =>
    rw [insertScored]
    by_cases hle : y.similarity ≤ x.similarity
    · rw [if_pos hle]
    · rw [if_neg hle]
      have hlt : x.similarity < y.similarity := lt_of_not_le hle
      by_cases hy : y.similarity = v
      · have hx : ¬ x.similarity = v := by
          intro hxv
          rw [hxv, hy] at hlt
          exact lt_irrefl v hlt
        simp [List.filter_cons, ih, hy, hx]
      · simp [List.filter_cons, ih, hy]

theorem sortScored_stable (v : ℝ) (l : List ScoredDoc) :
    (sortScored l).filter (fun e => decide (e.similarity = v))
      = l.filter (fun e => decide (e.similarity = v)) := by
  induction l with
  | nil => rfl
  | cons x xs ih =>
    rw [sortScored, filter_insertScored, List.filter_cons, List.filter_cons, ih]

/-! ## Claims about retrieval -/

/-- Claim C5: for every query embedding and stored knowledge base the
retriever returns at most `maxResults` results, and every returned chunk
passes the content-type filter — the extension of its source filename (the
part of `metadata.source` before any `"(part i/N)"` suffix) is one of
`.ts`, `.tsx`, `.js`, `.jsx`.  The filter re-derives this from the source
string; the quantification over arbitrary stored `metadata.type` values
shows the stored type field is never consulted. -/
theorem retrieval_topK_and_code_filter (q : List ℝ) (kb : List (DocumentChunk ℝ))
    (maxResults : Nat) :
    (relevantResults q kb maxResults).length ≤ maxResults
    ∧ (relevantResults q kb maxResults).all
        (fun e => isCodeSource e.document.metadata.source) = true := by
  constructor
  · exact List.length_take_le maxResults _
  · rw [List.all_eq_true]
    intro e he
    have h1 : e ∈ sortScored (scoredEntries q kb) :=
      (List.take_sublist maxResults _).subset he
    have h2 : e ∈ scoredEntries q kb := (sortScored_perm _).subset h1
    rw [scoredEntries] at h2
    rcases List.mem_map.mp h2 with ⟨d, hd, he2⟩
    rw [codeEntries] at hd
    have hcode := List.of_mem_filter hd
    rw [← he2]
    exact hcode

/-- Claim C6: for every query embedding and every knowledge base, retrieval
results are ordered by non-increasing cosine similarity, and the sort is
stable, so ties keep the original insertion order (for every similarity
value, filtering the sorted candidates to that value gives exactly the same
subsequence as filtering the unsorted candidates); moreover, whenever some
stored code chunk's embedding equals the (non-degenerate) query vector, the
first returned result has similarity exactly 1, the maximum. -/
theorem retrieval_sorted_stable_rank1 (q : List ℝ) (kb : List (DocumentChunk ℝ))
    (maxResults : Nat) :
    (relevantResults q kb maxResults).Pairwise
        (fun a b => b.similarity ≤ a.similarity)
    ∧ (∀ v : ℝ, (sortScored (scoredEntries q kb)).filter (fun e => decide (e.similarity = v))
        = (scoredEntries q kb).filter (fun e => decide (e.similarity = v)))
    ∧ (∀ d : DocumentChunk ℝ, d ∈ kb → isCodeSource d.metadata.source = true →
        d.embedding = q → dotList q q ≠ 0 → 0 < maxResults →
        (relevantResults q kb maxResults).head?.map ScoredDoc.similarity = some 1) := by
  refine ⟨?_, fun v => sortScored_stable v _, ?_⟩
  · exact List.Pairwise.sublist (List.take_sublist maxResults _)
      (sortScored_pairwise (scoredEntries q kb))
  · intro d hmem hcode hemb hq hk
    have hd : d ∈ codeEntries kb := by
      rw [codeEntries]
      exact List.mem_filter.mpr ⟨hmem, hcode⟩
    have hx0 : (⟨d, cosineSimilarity q d.embedding⟩ : ScoredDoc) ∈ scoredEntries q kb := by
      rw [scoredEntries]
      exact List.mem_map.mpr ⟨d, hd, rfl⟩
    have hx0sim : cosineSimilarity q d.embedding = 1 := by
      rw [hemb]
      exact cosineSimilarity_self q hq
    have hx0L : (⟨d, cosineSimilarity q d.embedding⟩ : ScoredDoc)
        ∈ sortScored (scoredEntries q kb) :=
      ((sortScored_perm (scoredEntries q kb)).symm).subset hx0
    rcases hL : sortScored (scoredEntries q kb) with _ | ⟨hd0, tl⟩
    · rw [hL] at hx0L
      cases hx0L
    · have hhead1 : hd0.similarity = 1 := by
        have hle : hd0.similarity ≤ 1 := by
          have hmemL : hd0 ∈ sortScored (scoredEntries q kb) := by
            rw [hL]
            exact List.mem_cons_self hd0 tl
          have hmemE : hd0 ∈ scoredEntries q kb := (sortScored_perm _).subset hmemL
          rw [scoredEntries] at hmemE
          rcases List.mem_map.mp hmemE with ⟨d2, _, hd2⟩
          rw [← hd2]
          exact cosineSimilarity_le_one q d2.embedding
        have hge : 1 ≤ hd0.similarity := by
          rw [hL] at hx0L
          rcases List.mem_cons.mp hx0L with hh | hh
          · rw [← hh, hx0sim]
          · have hp := sortScored_pairwise (scoredEntries q kb)
            rw [hL] at hp
            rcases List.pairwise_cons.mp hp with ⟨hall, _⟩
            have := hall _ hh
            rw [hx0sim] at this
            exact this
        exact le_antisymm hle hge
      rcases Nat.exists_eq_succ_of_ne_zero (Nat.pos_iff_ne_zero.mp hk) with ⟨k2, hk2⟩
      rw [relevantResults, hL, hk2, List.take_succ_cons, List.head?_cons,
        Option.map_some', hhead1]

/-- Claim C6, witness: a one-chunk code knowledge base queried with its own
embedding vector — the hypotheses hold at this concrete input, and the
theorem yields the sortedness, stability and rank-one conclusions there. -/
theorem retrieval_sorted_stable_rank1_witness :
    (relevantResults [(1 : ℝ)]
        [⟨"export const one = 1".toList, [(1 : ℝ)], ⟨"one.ts".toList, "code".toList⟩⟩] 5).Pairwise
        (fun a b => b.similarity ≤ a.similarity)
    ∧ (∀ v : ℝ, (sortScored (scoredEntries [(1 : ℝ)]
          [⟨"export const one = 1".toList, [(1 : ℝ)], ⟨"one.ts".toList, "code".toList⟩⟩])).filter
            (fun e => decide (e.similarity = v))
        = (scoredEntries [(1 : ℝ)]
            [⟨"export const one = 1".toList, [(1 : ℝ)], ⟨"one.ts".toList, "code".toList⟩⟩]).filter
            (fun e => decide (e.similarity = v)))
    ∧ (relevantResults [(1 : ℝ)]
        [⟨"export const one = 1".toList, [(1 : ℝ)], ⟨"one.ts".toList, "code".toList⟩⟩] 5).head?.map
          ScoredDoc.similarity = some 1 :=
  ⟨(retrieval_sorted_stable_rank1 [(1 : ℝ)]
      [⟨"export const one = 1".toList, [(1 : ℝ)], ⟨"one.ts".toList, "code".toList⟩⟩] 5).1,
    (retrieval_sorted_stable_rank1 [(1 : ℝ)]
      [⟨"export const one = 1".toList, [(1 : ℝ)], ⟨"one.ts".toList, "code".toList⟩⟩] 5).2.1,
    (retrieval_sorted_stable_rank1 [(1 : ℝ)]
      [⟨"export const one = 1".toList, [(1 : ℝ)], ⟨"one.ts".toList, "code".toList⟩⟩] 5).2.2
      ⟨"export const one = 1".toList, [(1 : ℝ)], ⟨"one.ts".toList, "code".toList⟩⟩
      (List.mem_singleton_self _) (by decide) rfl
      (by
        rw [show dotList [(1 : ℝ)] [(1 : ℝ)] = 1 by simp [dotList]]
        exact one_ne_zero)
      (by decide)⟩

end AbstractDocsAgent
